import Mathlib

/-!
Verification of `pymatgen_diffusion/neb/full_path_mapper.py`.

This file gives a shallow embedding of the pure algorithmic content of the
module and proves properties about it:

* `generic_groupby` (module level): the quadratic union-by-relabeling grouping
  of a list under a binary comparator, translated statement by statement
  (including the live view of `list_out` during iteration and the
  decrement of `label_num` on a merge).
* `FullPathMapper.modify_path`: the path canonicalization generator, including
  the initial reversal when the first hop leaves the cell, the special
  two-hop branch, and the walk that flips reversed hops while negating
  `to_jimage`.
* the edge-matching loop of `FullPathMapper.get_intercollating_path`
  (the `found_` counter and the `RuntimeError`).
* the radius guard of `ComputedEntryPath._get_avg_chg_at_max` (`rr` is only
  assigned in the `radius is None` branch).
* `FullPathMapper.add_data_to_similar_edges` and
  `FullPathMapper.assign_cost_to_graph`, with edge attribute dictionaries
  modeled as insertion-ordered association lists, the symmetry test of the
  external spacegroup service modeled as a precomputed boolean per edge, and
  float values modeled as rationals.
* the `vac_mode` branch of `FullPathMapper.__init__` and the dead
  `len(self.unique_hops) != len(self.unique_hops)` diagnostic of
  `get_intercollating_path`.
-/

set_option maxHeartbeats 1000000

namespace FPM

/-! ### generic_groupby (full_path_mapper.py lines 51-77) -/

/-- Comparator applied at index level: `comp(list_in[i1], list_in[i2])`.
Out-of-range lookups yield `false`; the source loops only ever index in
range. -/
def ggComp {α : Type} (comp : α → α → Bool) (listIn : List α) (i j : Nat) : Bool :=
  match listIn[i]?, listIn[j]? with
  | some a, some b => comp a b
  | _, _ => false

/-- Read `list_out[i]` (entries are `None` or an int label). -/
def olook (lo : List (Option Int)) (i : Nat) : Option Int :=
  match lo.get? i with
  | some v => v
  | none => none

/-- Inner loop of `generic_groupby` over the indices `i2` in
`list(enumerate(list_out))[i1 + 1:]`.  State is `(list_out, label_num)`.
On a match: if `list_out[i2]` is `None` it receives the current
`list_out[i1]`, otherwise `list_out[i1]` is overwritten by `list_out[i2]`
and `label_num` is decremented. -/
def ggInner {α : Type} (comp : α → α → Bool) (listIn : List α) (i1 : Nat) :
    List Nat → List (Option Int) → Int → List (Option Int) × Int
  | [], lo, ln => (lo, ln)
  | i2 :: rest, lo, ln =>
    if ggComp comp listIn i1 i2 then
      match olook lo i2 with
      | none => ggInner comp listIn i1 rest (lo.set i2 (olook lo i1)) ln
      | some l2 => ggInner comp listIn i1 rest (lo.set i1 (some l2)) (ln - 1)
    else ggInner comp listIn i1 rest lo ln

/-- Outer loop of `generic_groupby` over `enumerate(list_out)` (a live view:
the `None` test reads the current state).  An already labeled `i1` is
skipped via `continue` (so `label_num += 1` does not run for it). -/
def ggOuter {α : Type} (comp : α → α → Bool) (listIn : List α) :
    List Nat → List (Option Int) → Int → List (Option Int)
  | [], lo, _ => lo
  | i1 :: rest, lo, ln =>
    match olook lo i1 with
    | some _ => ggOuter comp listIn rest lo ln
    | none =>
      let st := ggInner comp listIn i1
        (List.range' (i1 + 1) (listIn.length - (i1 + 1)))
        (lo.set i1 (some ln)) ln
      ggOuter comp listIn rest st.1 (st.2 + 1)

/-- `generic_groupby(list_in, comp)`: `list_out = [None] * len(list_in)`,
`label_num = 0`, then the nested loops. -/
def generic_groupby {α : Type} (comp : α → α → Bool) (listIn : List α) :
    List (Option Int) :=
  ggOuter comp listIn (List.range listIn.length)
    (List.replicate listIn.length none) 0

/-! ### modify_path (full_path_mapper.py lines 348-390) -/

/-- A `to_jimage` integer 3-vector. -/
abbrev Jim := Int × Int × Int

/-- Componentwise negation, `tuple([-u for u in info["to_jimage"]])`. -/
def negJ (j : Jim) : Jim := (-j.1, -j.2.1, -j.2.2)

/-- Componentwise subtraction, `np.subtract(jimage2, jimage1)`. -/
def subJ (a b : Jim) : Jim := (a.1 - b.1, a.2.1 - b.2.1, a.2.2 - b.2.2)

/-- The edge data dict carried by a hop: its `to_jimage` entry plus an opaque
tag standing for all the remaining entries (`hop`, positions, ...). -/
structure HopInfo where
  toJimage : Jim
  payload : Nat
deriving DecidableEq

/-- One entry `(u, v, data)` of a path handed to `modify_path`. -/
structure Hop where
  u : Nat
  v : Nat
  info : HopInfo
deriving DecidableEq

/-- Python set equality `set(one_path[0][0:2]) == set(one_path[1][0:2])` of
the two (unordered) endpoint pairs. -/
def setEq2 (a b : Nat × Nat) : Bool :=
  (a.1 == b.1 && a.2 == b.2) || (a.1 == b.2 && a.2 == b.1)

/-- Models `list(set(a) & set(b))[0]`: an element common to both endpoint
pairs.  `none` models the `IndexError` on an empty intersection.  When both
endpoints are common the smaller is picked (CPython iterates a small set of
small ints in increasing value order); in every situation relevant to the
claims the intersection is a singleton, where the pick is exact. -/
def commonPick (a b : Nat × Nat) : Option Nat :=
  let mem : Nat → Bool := fun x => x == b.1 || x == b.2
  if mem a.1 && mem a.2 then some (min a.1 a.2)
  else if mem a.1 then some a.1
  else if mem a.2 then some a.2
  else none

/-- The walk of the general branch of `modify_path`: both `if`s are
independent (not `elif`), a hop whose second endpoint matches
`previous_point` is appended flipped with `to_jimage` negated, and
`previous_point = m_path[-1][1]` raises `IndexError` (modeled `none`) when
`m_path` is still empty. -/
def mpLoop : List Hop → List Hop → Nat → Option (List Hop)
  | [], acc, _ => some acc
  | h :: rest, acc, prev =>
    let acc1 := if h.u == prev then acc ++ [h] else acc
    let acc2 := if h.v == prev then
        acc1 ++ [⟨h.v, h.u, ⟨negJ h.info.toJimage, h.info.payload⟩⟩]
      else acc1
    match acc2.getLast? with
    | none => none
    | some last => mpLoop rest acc2 last.v

/-- The body of `modify_path` for a single `one_path`; `none` models an
uncaught `IndexError` (empty path, one-hop path, or empty intersection of
first/last endpoint sets). -/
def modify_one_path (p : List Hop) : Option (List Hop) :=
  match p with
  | [] => none
  | h0 :: _ =>
    let q := if h0.info.toJimage ≠ ((0, 0, 0) : Jim) then p.reverse else p
    match q with
    | [] => none
    | a :: qrest =>
      match qrest with
      | [] => none
      | b :: _ =>
        if setEq2 (a.u, a.v) (b.u, b.v) then
          if a.u == b.u then some [⟨a.v, a.u, a.info⟩, b] else some []
        else
          match q.getLast? with
          | none => none
          | some z =>
            match commonPick (a.u, a.v) (z.u, z.v) with
            | none => none
            | some start => mpLoop q [] start

/-- The `modify_path` generator, collected over its input paths. -/
def modify_path (paths : List (List Hop)) : List (Option (List Hop)) :=
  paths.map modify_one_path

/-! ### edge matching in get_intercollating_path (lines 319-334) -/

/-- One `(key, data)` entry of `GG.get_edge_data(i1_, i2_)`: its `to_jimage`
plus an opaque tag for the rest of the data dict. -/
structure EdgeDatum where
  toJimage : Jim
  payload : Nat
deriving DecidableEq

/-- The membership test
`tmp_d["to_jimage"] in {tuple(image_diff), tuple(-image_diff)}`. -/
def jMatch (diff : Jim) (d : EdgeDatum) : Bool :=
  decide (d.toJimage = diff ∨ d.toJimage = negJ diff)

/-- The `for k, tmp_d in all_edge_data` loop: every match is appended to
`path_hops` and bumps `found_`. -/
def matchLoop : List EdgeDatum → Jim → List EdgeDatum → Nat →
    List EdgeDatum × Nat
  | [], _, acc, found => (acc, found)
  | d :: rest, diff, acc, found =>
    if jMatch diff d then matchLoop rest diff (acc ++ [d]) (found + 1)
    else matchLoop rest diff acc found

/-- One reconstruction step for a consecutive state pair
`(idx1, jimage1), (idx2, jimage2)`: run the matching loop with
`image_diff = jimage2 - jimage1`, then `raise RuntimeError` (modeled `none`)
unless `found_ == 1`. -/
def reconstructStep (pathHops edges : List EdgeDatum) (jimage1 jimage2 : Jim) :
    Option (List EdgeDatum) :=
  let r := matchLoop edges (subJ jimage2 jimage1) pathHops 0
  if r.2 = 1 then some r.1 else none

/-! ### radius guard of _get_avg_chg_at_max (lines 612-656) -/

/-- The Python exceptions the guard can raise. -/
inductive PyError
  | unboundLocalError
  | typeError
  | valueError
deriving DecidableEq

/-- Control flow of the prologue of `_get_avg_chg_at_max`:

```
if radius is None:
    rr = self._tube_radius
if not rr > 0:
    raise ValueError(...)
```

`rr` is assigned only in the `radius is None` branch, so an explicitly
supplied `radius` reaches `not rr > 0` with `rr` unbound
(`UnboundLocalError`); a `None` `_tube_radius` (its value after
`__init__`) makes `rr > 0` a `NoneType`/`int` comparison (`TypeError`).
`Except.ok` means control reaches the averaging computation. -/
def get_avg_chg_at_max_guard (radius : Option ℚ) (tubeRadius : Option ℚ) :
    Except PyError Unit :=
  match radius with
  | some _ => Except.error PyError.unboundLocalError
  | none =>
    match tubeRadius with
    | none => Except.error PyError.typeError
    | some rr => if rr > 0 then Except.ok () else Except.error PyError.valueError

/-! ### add_data_to_similar_edges / assign_cost_to_graph (lines 211-252) -/

/-- A value stored in an edge data dict: a Python `list`, a numpy array, or
a plain (non-list, non-array) value — numbers are modeled as rationals. -/
inductive Val
  | vlist : List Int → Val
  | varr : List Int → Val
  | vnum : ℚ → Val
deriving DecidableEq

/-- The `isinstance(data[k], (np.ndarray, np.generic))` test. -/
def Val.isArr : Val → Bool
  | varr _ => true
  | _ => false

/-- The `isinstance(data[k], list)` test. -/
def Val.isList : Val → Bool
  | vlist _ => true
  | _ => false

/-- The slice `d[k][::-1]`. -/
def Val.rev : Val → Val
  | vlist l => vlist l.reverse
  | varr l => varr l.reverse
  | vnum q => vnum q

/-- An insertion-ordered dictionary with `Nat`-coded string keys. -/
abbrev Dict := List (Nat × Val)

/-- Dictionary lookup `d[k]`. -/
def dictGet : Dict → Nat → Option Val
  | [], _ => none
  | kv :: rest, k => if kv.1 = k then some kv.2 else dictGet rest k

/-- Dictionary assignment `d[k] = v`: overwrite in place, or append a new
key at the end (Python dicts preserve insertion order). -/
def dictSet : Dict → Nat → Val → Dict
  | [], k, v => [(k, v)]
  | kv :: rest, k, v =>
    if kv.1 = k then (k, v) :: rest else kv :: dictSet rest k v

/-- `d.update(data)`: assign every pair of `data` in order. -/
def dictUpdate (d : Dict) (data : Dict) : Dict :=
  data.foldl (fun acc kv => dictSet acc kv.1 kv.2) d

/-- A graph edge as seen by `add_data_to_similar_edges`: its `hop_label`,
the (externally computed) boolean saying its hop's initial site is NOT
symmetrically equivalent to the reference `m_path.isite`, and its data
dict. -/
structure Edge where
  hopLabel : Int
  isiteNotEquiv : Bool
  attrs : Dict
deriving DecidableEq

/-- The `for k in data.keys()` flipping loop.  An array value raises
(`raise Warning(...)`, modeled by the `true` flag, aborting with the dict
as mutated so far); a list value is reversed in place (`d[k] = d[k][::-1]`,
where `d[k]` was just set by `d.update(data)`); anything else is skipped.
The `none` lookup branch cannot occur after the update. -/
def flipLoop : Dict → Dict → Dict × Bool
  | attrs, [] => (attrs, false)
  | attrs, kv :: rest =>
    if kv.2.isArr then (attrs, true)
    else if kv.2.isList then
      match dictGet attrs kv.1 with
      | some w => flipLoop (dictSet attrs kv.1 w.rev) rest
      | none => flipLoop attrs rest
    else flipLoop attrs rest

/-- The body of the edge loop of `add_data_to_similar_edges` for one edge:
on a label match the dict is updated, then flipped when an `m_path`
reference was supplied and the edge's orientation disagrees with it. -/
def processEdge (targetLabel : Int) (data : Dict) (mPathGiven : Bool)
    (e : Edge) : Edge × Bool :=
  if e.hopLabel = targetLabel then
    let a1 := dictUpdate e.attrs data
    if mPathGiven && e.isiteNotEquiv then
      let r := flipLoop a1 data
      ({ e with attrs := r.1 }, r.2)
    else ({ e with attrs := a1 }, false)
  else (e, false)

/-- `add_data_to_similar_edges`: iterate over the edges; a raise inside one
edge aborts the loop, leaving the remaining edges untouched.  The boolean
reports whether the `Warning` was raised. -/
def add_data_to_similar_edges (targetLabel : Int) (data : Dict)
    (mPathGiven : Bool) : List Edge → List Edge × Bool
  | [] => ([], false)
  | e :: rest =>
    let r := processEdge targetLabel data mPathGiven e
    if r.2 then (r.1 :: rest, true)
    else
      let rr := add_data_to_similar_edges targetLabel data mPathGiven rest
      (r.1 :: rr.1, rr.2)

/-- Key code of the `"cost"` dictionary key. -/
def costKey : Nat := 0

/-- `np.prod([v[ik] for ik in cost_keys])` over the representative edge's
dict; `none` models the `KeyError` on a missing key (or a non-numeric
value). -/
def npProdKeys (d : Dict) (keys : List Nat) : Option ℚ :=
  keys.foldr
    (fun k acc =>
      match dictGet d k, acc with
      | some (Val.vnum q), some r => some (q * r)
      | _, _ => none)
    (some 1)

/-- `assign_cost_to_graph`: for each `(label, representative)` entry of
`unique_hops` in order, compute the product of the `cost_keys` values of
the representative and broadcast it under the `"cost"` key with
`add_data_to_similar_edges` (called with `m_path = None`).  In the source
`unique_hops[label]` aliases an edge dict with that same label, and each
iteration reads its representative before any write to that dict can
happen, so passing the representatives by value is faithful. -/
def assign_cost_to_graph : List (Int × Dict) → List Nat → List Edge →
    Option (List Edge)
  | [], _, edges => some edges
  | kv :: rest, costKeys, edges =>
    match npProdKeys kv.2 costKeys with
    | none => none
    | some q =>
      assign_cost_to_graph rest costKeys
        (add_data_to_similar_edges kv.1 [(costKey, Val.vnum q)] false edges).1

/-! ### FullPathMapper.__init__ vac_mode branch (lines 116-118) -/

/-- Exception raised by the constructor. -/
inductive InitError
  | notImplementedError
deriving DecidableEq

/-- Constructor arguments (the structure itself is opaque to the core). -/
structure FPMArgs (σ : Type) where
  struct : σ
  maxPathLength : ℚ
  symprec : ℚ
  vacMode : Bool

/-- Control flow of `FullPathMapper.__init__` around the `vac_mode` check:
the symmetry analysis and site extraction are external services (assumed
total), after which `if vac_mode: raise NotImplementedError` runs before
any graph is built. -/
def fullPathMapperInit {σ : Type} (args : FPMArgs σ) :
    Except InitError (FPMArgs σ) :=
  if args.vacMode then Except.error InitError.notImplementedError
  else Except.ok args

/-! ### the hop-count diagnostic of get_intercollating_path (lines 269-272) -/

/-- The condition `len(self.unique_hops) != len(self.unique_hops)` guarding
`logger.error(...)`: both sides are the same expression, so this is the
logged-mismatch flag as a function of the stored unique-hop count.  No
exception is raised on this code path. -/
def scUcHopCountMismatch (uniqueHopsLen : Nat) : Bool :=
  decide (uniqueHopsLen ≠ uniqueHopsLen)

/-! ### specification predicates used by the theorems -/

/-- Frame specification relating an input edge `e0` of
`add_data_to_similar_edges` to its output edge `e1`: label and orientation
flag are untouched; an edge with a different label is completely untouched;
keys absent from `data` are untouched; and a key of `data` either keeps its
old value, holds the broadcast value, or holds the reversed broadcast value
— the last only for a `list` value on a disoriented edge of the target
label with a reference path supplied. -/
def EdgeOk (t : Int) (data : Dict) (mp : Bool) (e0 e1 : Edge) : Prop :=
  e1.hopLabel = e0.hopLabel ∧
  e1.isiteNotEquiv = e0.isiteNotEquiv ∧
  (e0.hopLabel ≠ t → e1 = e0) ∧
  (∀ k, k ∉ data.map Prod.fst → dictGet e1.attrs k = dictGet e0.attrs k) ∧
  (∀ k v, (k, v) ∈ data →
    dictGet e1.attrs k = dictGet e0.attrs k ∨
    dictGet e1.attrs k = some v ∨
    (dictGet e1.attrs k = some v.rev ∧ v.isList = true ∧
      e0.isiteNotEquiv = true ∧ mp = true ∧ e0.hopLabel = t))

/-- Invariant of the outer loop of `generic_groupby` after the first `k`
indices have been processed: the lengths agree, an index is labeled exactly
when it is related to an already processed index, two labeled indices carry
equal labels exactly when they are related, and every assigned label is
below the running `label_num`. -/
def GGInv {α : Type} (comp : α → α → Bool) (listIn : List α) (k : Nat)
    (lo : List (Option Int)) (ln : Int) : Prop :=
  lo.length = listIn.length ∧
  (∀ i, (olook lo i).isSome ↔ ∃ j, j < k ∧ ggComp comp listIn j i = true) ∧
  (∀ i i' L L', olook lo i = some L → olook lo i' = some L' →
    (L = L' ↔ ggComp comp listIn i i' = true)) ∧
  (∀ i L, olook lo i = some L → L < ln)

/-- A three-hop path of the shape produced by `get_intercollating_path`
whose boundary-crossing hop sits in the middle: `0 → 1` inside the cell,
`1 → 2` crossing into image `(1,0,0)`, `2 → 0` inside that image. -/
def c2Path : List Hop :=
  [⟨0, 1, ⟨(0, 0, 0), 0⟩⟩, ⟨1, 2, ⟨(1, 0, 0), 1⟩⟩, ⟨2, 0, ⟨(0, 0, 0), 2⟩⟩]

/-- A two-hop path whose endpoint index pairs are equal as sets while the
first endpoints differ. -/
def c10Path : List Hop :=
  [⟨1, 2, ⟨(0, 0, 0), 0⟩⟩, ⟨2, 1, ⟨(1, 0, 0), 1⟩⟩]

/-! ## Theorems -/

/-- C8: constructing a `FullPathMapper` with `vac_mode=True` always fails by
raising `NotImplementedError`, for every input structure and parameter
combination. -/
theorem vac_mode_always_raises {σ : Type} (s : σ) (mpl prec : ℚ) :
    fullPathMapperInit ⟨s, mpl, prec, true⟩ =
      Except.error InitError.notImplementedError := rfl

/-- C9: the hop-count diagnostic of `get_intercollating_path` compares
`len(self.unique_hops)` with itself, so its condition is false for every
state and nothing is ever logged (and, a fortiori, execution never halts
there).  This refutes the claim that a supercell/unit-cell count mismatch
is logged. -/
theorem sc_uc_hop_count_never_logged (n : Nat) :
    scUcHopCountMismatch n = false := by
  simp [scUcHopCountMismatch]

/-- C4: the radius guard of `_get_avg_chg_at_max` never assigns `rr` when a
radius is supplied explicitly, so such a call fails with
`UnboundLocalError` instead of proceeding; only the defaulted call checks
positivity and raises `ValueError`. -/
theorem get_avg_chg_guard_explicit_radius_bug :
    get_avg_chg_at_max_guard (some 1) (some 2) =
      Except.error PyError.unboundLocalError ∧
    get_avg_chg_at_max_guard none (some 2) = Except.ok () ∧
    get_avg_chg_at_max_guard none (some 0) =
      Except.error PyError.valueError := by
  refine ⟨rfl, ?_, ?_⟩ <;> norm_num [get_avg_chg_at_max_guard]

/-- C2: `modify_path` does not canonicalize a path whose boundary-crossing
hop is in the middle: on `c2Path` it yields the path unchanged, so the last
hop of the yielded path has `to_jimage == (0,0,0)` while a preceding hop
has `to_jimage == (1,0,0)`, contradicting the claimed postcondition. -/
theorem modify_path_boundary_violation :
    modify_path [c2Path] = [some c2Path] ∧
    (c2Path.getLastD ⟨0, 0, ⟨(0, 0, 0), 0⟩⟩).info.toJimage = (0, 0, 0) ∧
    c2Path[1]?.map (fun h => h.info.toJimage) = some ((1, 0, 0) : Jim) := by
  decide

/-- C10: on a two-hop path whose endpoint pairs agree as sets while the
first endpoints differ, `modify_path` yields the empty list, silently
dropping both hops. -/
theorem modify_path_two_hop_dropped :
    modify_one_path c10Path = some [] ∧ modify_path [c10Path] = [some []] := by
  decide

/-- Closed form of the matching loop: it appends exactly the edges whose
`to_jimage` is `image_diff` or its negation, and counts them. -/
theorem matchLoop_spec (diff : Jim) :
    ∀ (edges acc : List EdgeDatum) (found : Nat),
      matchLoop edges diff acc found =
        (acc ++ edges.filter (jMatch diff),
          found + (edges.filter (jMatch diff)).length) := by
  intro edges
  induction edges with
  | nil => intro acc found; simp [matchLoop]
  | cons d rest ih =>
    intro acc found
    by_cases h : jMatch diff d
    · simp [matchLoop, h, ih, List.filter_cons, List.append_assoc]
      omega
    · simp [matchLoop, h, ih, List.filter_cons]

/-- C3: one reconstruction step of `get_intercollating_path` raises
`RuntimeError` exactly when the number of edges between the node pair whose
`to_jimage` is plus or minus `jimage2 - jimage1` is not one, and with
exactly one such edge appends its data dict to the hop list. -/
theorem reconstructStep_correct (pathHops edges : List EdgeDatum)
    (j1 j2 : Jim) :
    (reconstructStep pathHops edges j1 j2 = none ↔
      (edges.filter (jMatch (subJ j2 j1))).length ≠ 1) ∧
    ((edges.filter (jMatch (subJ j2 j1))).length = 1 →
      reconstructStep pathHops edges j1 j2 =
        some (pathHops ++ edges.filter (jMatch (subJ j2 j1)))) := by
  unfold reconstructStep
  rw [matchLoop_spec]
  constructor
  · by_cases h : (edges.filter (jMatch (subJ j2 j1))).length = 1 <;>
      simp [h]
  · intro h; simp [h]

/-! ### dictionary lemmas -/

theorem dictGet_dictSet_self (d : Dict) (k : Nat) (v : Val) :
    dictGet (dictSet d k v) k = some v := by
  induction d with
  | nil => simp [dictSet, dictGet]
  | cons kv rest ih =>
    by_cases h : kv.1 = k
    · simp [dictSet, h, dictGet]
    · simp [dictSet, h, dictGet, ih]

theorem dictGet_dictSet_ne (d : Dict) (k m : Nat) (v : Val) (h : k ≠ m) :
    dictGet (dictSet d k v) m = dictGet d m := by
  induction d with
  | nil => simp [dictSet, dictGet, h]
  | cons kv rest ih =>
    by_cases h2 : kv.1 = k
    · simp [dictSet, h2, dictGet, h]
    · simp [dictSet, h2, dictGet, ih]

theorem dictUpdate_nil (d : Dict) : dictUpdate d [] = d := rfl

theorem dictUpdate_cons (d : Dict) (kv : Nat × Val) (rest : Dict) :
    dictUpdate d (kv :: rest) = dictUpdate (dictSet d kv.1 kv.2) rest := rfl

theorem dictUpdate_single (d : Dict) (k : Nat) (v : Val) :
    dictUpdate d [(k, v)] = dictSet d k v := rfl

theorem dictGet_dictUpdate_not_mem (data : Dict) :
    ∀ (d : Dict) (k : Nat), k ∉ data.map Prod.fst →
      dictGet (dictUpdate d data) k = dictGet d k := by
  induction data with
  | nil => intro d k _; rfl
  | cons kv rest ih =>
    intro d k hk
    simp only [List.map_cons, List.mem_cons, not_or] at hk
    rw [dictUpdate_cons, ih _ _ hk.2, dictGet_dictSet_ne _ _ _ _ (Ne.symm hk.1)]

theorem dictGet_dictUpdate_mem (data : Dict) :
    ∀ (d : Dict) (k : Nat) (v : Val), (data.map Prod.fst).Nodup →
      (k, v) ∈ data → dictGet (dictUpdate d data) k = some v := by
  induction data with
  | nil => intro d k v _ h; cases h
  | cons kv rest ih =>
    intro d k v hnd hm
    rw [List.map_cons, List.nodup_cons] at hnd
    obtain ⟨hh, ht⟩ := hnd
    rw [dictUpdate_cons]
    rcases List.mem_cons.mp hm with h | h
    · subst h
      rw [dictGet_dictUpdate_not_mem rest _ _ hh]
      exact dictGet_dictSet_self d k v
    · exact ih _ _ _ ht h

/-! ### flipLoop lemmas -/

theorem flipLoop_cons_arr (attrs : Dict) (kv : Nat × Val) (rest : Dict)
    (ha : kv.2.isArr = true) : flipLoop attrs (kv :: rest) = (attrs, true) := by
  simp [flipLoop, ha]

theorem flipLoop_cons_list (attrs : Dict) (kv : Nat × Val) (rest : Dict)
    (w : Val) (ha : kv.2.isArr = false) (hl : kv.2.isList = true)
    (hw : dictGet attrs kv.1 = some w) :
    flipLoop attrs (kv :: rest) = flipLoop (dictSet attrs kv.1 w.rev) rest := by
  simp [flipLoop, ha, hl, hw]

theorem flipLoop_cons_list_none (attrs : Dict) (kv : Nat × Val) (rest : Dict)
    (ha : kv.2.isArr = false) (hl : kv.2.isList = true)
    (hw : dictGet attrs kv.1 = none) :
    flipLoop attrs (kv :: rest) = flipLoop attrs rest := by
  simp [flipLoop, ha, hl, hw]

theorem flipLoop_cons_other (attrs : Dict) (kv : Nat × Val) (rest : Dict)
    (ha : kv.2.isArr = false) (hl : kv.2.isList = false) :
    flipLoop attrs (kv :: rest) = flipLoop attrs rest := by
  simp [flipLoop, ha, hl]

theorem flipLoop_get_not_mem (data : Dict) :
    ∀ (attrs : Dict) (k : Nat), k ∉ data.map Prod.fst →
      dictGet (flipLoop attrs data).1 k = dictGet attrs k := by
  induction data with
  | nil => intro attrs k _; rfl
  | cons kv rest ih =>
    intro attrs k hk
    simp only [List.map_cons, List.mem_cons, not_or] at hk
    by_cases ha : kv.2.isArr = true
    · rw [flipLoop_cons_arr attrs kv rest ha]
    · rw [Bool.not_eq_true] at ha
      by_cases hl : kv.2.isList = true
      · cases hw : dictGet attrs kv.1 with
        | none => rw [flipLoop_cons_list_none attrs kv rest ha hl hw, ih _ _ hk.2]
        | some w =>
          rw [flipLoop_cons_list attrs kv rest w ha hl hw, ih _ _ hk.2,
            dictGet_dictSet_ne _ _ _ _ (Ne.symm hk.1)]
      · rw [Bool.not_eq_true] at hl
        rw [flipLoop_cons_other attrs kv rest ha hl, ih _ _ hk.2]

theorem flipLoop_val (data : Dict) :
    ∀ (attrs : Dict) (k : Nat) (v : Val), (data.map Prod.fst).Nodup →
      (k, v) ∈ data → dictGet attrs k = some v →
      dictGet (flipLoop attrs data).1 k = some v ∨
      (dictGet (flipLoop attrs data).1 k = some v.rev ∧ v.isList = true) := by
  induction data with
  | nil => intro attrs k v _ hm _; cases hm
  | cons kv rest ih =>
    intro attrs k v hnd hm hget
    rw [List.map_cons, List.nodup_cons] at hnd
    obtain ⟨hh, ht⟩ := hnd
    by_cases ha : kv.2.isArr = true
    · left; rw [flipLoop_cons_arr attrs kv rest ha]; exact hget
    · rw [Bool.not_eq_true] at ha
      by_cases hl : kv.2.isList = true
      · rcases List.mem_cons.mp hm with he | he
        · subst he
          right
          refine ⟨?_, hl⟩
          rw [flipLoop_cons_list attrs (k, v) rest v ha hl hget,
            flipLoop_get_not_mem rest _ _ hh]
          exact dictGet_dictSet_self attrs k v.rev
        · have hk : k ≠ kv.1 := by
            intro hcontra
            exact hh (hcontra ▸ List.mem_map_of_mem Prod.fst he)
          cases hw : dictGet attrs kv.1 with
          | none =>
            rw [flipLoop_cons_list_none attrs kv rest ha hl hw]
            exact ih _ _ _ ht he hget
          | some w =>
            rw [flipLoop_cons_list attrs kv rest w ha hl hw]
            refine ih _ _ _ ht he ?_
            rw [dictGet_dictSet_ne _ _ _ _ (Ne.symm hk)]
            exact hget
      · rw [Bool.not_eq_true] at hl
        rcases List.mem_cons.mp hm with he | he
        · subst he
          left
          rw [flipLoop_cons_other attrs (k, v) rest ha hl]
          rw [flipLoop_get_not_mem rest _ _ hh]
          exact hget
        · rw [flipLoop_cons_other attrs kv rest ha hl]
          exact ih _ _ _ ht he hget

theorem flipLoop_err_of_arr (data : Dict) :
    ∀ attrs : Dict, (∃ kv ∈ data, kv.2.isArr = true) →
      (flipLoop attrs data).2 = true := by
  induction data with
  | nil => intro attrs h; obtain ⟨kv, hm, _⟩ := h; cases hm
  | cons kv rest ih =>
    intro attrs h
    by_cases ha : kv.2.isArr = true
    · rw [flipLoop_cons_arr attrs kv rest ha]
    · have hr : ∃ kv2 ∈ rest, kv2.2.isArr = true := by
        obtain ⟨kv2, hm, harr⟩ := h
        rcases List.mem_cons.mp hm with he | he
        · exact absurd (he ▸ harr) ha
        · exact ⟨kv2, he, harr⟩
      rw [Bool.not_eq_true] at ha
      by_cases hl : kv.2.isList = true
      · cases hw : dictGet attrs kv.1 with
        | none =>
          rw [flipLoop_cons_list_none attrs kv rest ha hl hw]; exact ih _ hr
        | some w =>
          rw [flipLoop_cons_list attrs kv rest w ha hl hw]; exact ih _ hr
      · rw [Bool.not_eq_true] at hl
        rw [flipLoop_cons_other attrs kv rest ha hl]; exact ih _ hr

/-! ### processEdge lemmas -/

theorem processEdge_fields (t : Int) (data : Dict) (mp : Bool) (e : Edge) :
    ((processEdge t data mp e).1).hopLabel = e.hopLabel ∧
    ((processEdge t data mp e).1).isiteNotEquiv = e.isiteNotEquiv := by
  unfold processEdge
  by_cases h : e.hopLabel = t <;>
    by_cases h2 : (mp && e.isiteNotEquiv) = true <;> simp [h, h2]

theorem processEdge_not_target (t : Int) (data : Dict) (mp : Bool) (e : Edge)
    (h : e.hopLabel ≠ t) : processEdge t data mp e = (e, false) := by
  simp [processEdge, h]

theorem processEdge_attrs_flip (t : Int) (data : Dict) (mp : Bool) (e : Edge)
    (h : e.hopLabel = t) (h2 : (mp && e.isiteNotEquiv) = true) :
    ((processEdge t data mp e).1).attrs =
      (flipLoop (dictUpdate e.attrs data) data).1 := by
  simp [processEdge, h, h2]

theorem processEdge_attrs_upd (t : Int) (data : Dict) (mp : Bool) (e : Edge)
    (h : e.hopLabel = t) (h2 : ¬(mp && e.isiteNotEquiv) = true) :
    ((processEdge t data mp e).1).attrs = dictUpdate e.attrs data := by
  simp [processEdge, h, h2]

theorem processEdge_get_not_mem (t : Int) (data : Dict) (mp : Bool) (e : Edge)
    (k : Nat) (hk : k ∉ data.map Prod.fst) :
    dictGet ((processEdge t data mp e).1).attrs k = dictGet e.attrs k := by
  by_cases h : e.hopLabel = t
  · by_cases h2 : (mp && e.isiteNotEquiv) = true
    · rw [processEdge_attrs_flip t data mp e h h2,
        flipLoop_get_not_mem data _ _ hk,
        dictGet_dictUpdate_not_mem data _ _ hk]
    · rw [processEdge_attrs_upd t data mp e h h2,
        dictGet_dictUpdate_not_mem data _ _ hk]
  · rw [processEdge_not_target t data mp e h]

theorem processEdge_val (t : Int) (data : Dict) (mp : Bool) (e : Edge)
    (k : Nat) (v : Val) (hnd : (data.map Prod.fst).Nodup)
    (hm : (k, v) ∈ data) :
    dictGet ((processEdge t data mp e).1).attrs k = dictGet e.attrs k ∨
    dictGet ((processEdge t data mp e).1).attrs k = some v ∨
    (dictGet ((processEdge t data mp e).1).attrs k = some v.rev ∧
      v.isList = true ∧ e.isiteNotEquiv = true ∧ mp = true ∧
      e.hopLabel = t) := by
  by_cases h : e.hopLabel = t
  · have hupd : dictGet (dictUpdate e.attrs data) k = some v :=
      dictGet_dictUpdate_mem data e.attrs k v hnd hm
    by_cases h2 : (mp && e.isiteNotEquiv) = true
    · have hget := processEdge_attrs_flip t data mp e h h2
      rcases flipLoop_val data (dictUpdate e.attrs data) k v hnd hm hupd with
        hc | ⟨hc, hlst⟩
      · right; left; rw [hget]; exact hc
      · right; right
        have h2c := h2
        rw [Bool.and_eq_true] at h2c
        exact ⟨by rw [hget]; exact hc, hlst, h2c.2, h2c.1, h⟩
    · right; left
      rw [processEdge_attrs_upd t data mp e h h2]; exact hupd
  · left; rw [processEdge_not_target t data mp e h]

theorem processEdge_false_err (t : Int) (data : Dict) (e : Edge) :
    (processEdge t data false e).2 = false := by
  unfold processEdge
  by_cases h : e.hopLabel = t <;> simp [h]

theorem processEdge_false_spec (t : Int) (data : Dict) (e : Edge) :
    (processEdge t data false e).1 =
      if e.hopLabel = t then { e with attrs := dictUpdate e.attrs data }
      else e := by
  unfold processEdge
  by_cases h : e.hopLabel = t <;> simp [h]

theorem edgeOk_refl (t : Int) (data : Dict) (mp : Bool) (e : Edge) :
    EdgeOk t data mp e e :=
  ⟨rfl, rfl, fun _ => rfl, fun _ _ => rfl, fun _ _ _ => Or.inl rfl⟩

theorem edgeOk_processEdge (t : Int) (data : Dict) (mp : Bool) (e : Edge)
    (hnd : (data.map Prod.fst).Nodup) :
    EdgeOk t data mp e (processEdge t data mp e).1 := by
  refine ⟨(processEdge_fields t data mp e).1, (processEdge_fields t data mp e).2,
    ?_, ?_, ?_⟩
  · intro h; rw [processEdge_not_target t data mp e h]
  · intro k hk; exact processEdge_get_not_mem t data mp e k hk
  · intro k v hm; exact processEdge_val t data mp e k v hnd hm

/-- C5: `add_data_to_similar_edges` touches neither edges with a different
label nor keys outside the broadcast dict, and value reversal happens only
for list values on edges whose initial site is not symmetrically equivalent
to the reference path's. -/
theorem add_data_to_similar_edges_frame (t : Int) (data : Dict) (mp : Bool)
    (edges : List Edge) (hnd : (data.map Prod.fst).Nodup) :
    List.Forall₂ (EdgeOk t data mp) edges
      (add_data_to_similar_edges t data mp edges).1 := by
  induction edges with
  | nil => exact List.Forall₂.nil
  | cons e rest ih =>
    unfold add_data_to_similar_edges
    cases hr : (processEdge t data mp e).2 with
    | true =>
      simp only [hr, if_true]
      exact List.Forall₂.cons (edgeOk_processEdge t data mp e hnd)
        ((List.forall₂_same).mpr fun e2 _ => edgeOk_refl t data mp e2)
    | false =>
      simp only [hr, Bool.false_eq_true, if_false]
      exact List.Forall₂.cons (edgeOk_processEdge t data mp e hnd) ih

/-- Witness for C5 at a concrete broadcast: label 0, a list value and a
number, one disoriented matching edge and one non-matching edge. -/
theorem add_data_to_similar_edges_frame_witness :
    (([(1, Val.vlist [1, 2]), (2, Val.vnum 5)] : Dict).map Prod.fst).Nodup ∧
    List.Forall₂ (EdgeOk 0 [(1, Val.vlist [1, 2]), (2, Val.vnum 5)] true)
      [⟨0, true, [(3, Val.vnum 7)]⟩, ⟨1, false, []⟩]
      (add_data_to_similar_edges 0 [(1, Val.vlist [1, 2]), (2, Val.vnum 5)]
        true [⟨0, true, [(3, Val.vnum 7)]⟩, ⟨1, false, []⟩]).1 :=
  ⟨by decide,
    add_data_to_similar_edges_frame 0 [(1, Val.vlist [1, 2]), (2, Val.vnum 5)]
      true [⟨0, true, [(3, Val.vnum 7)]⟩, ⟨1, false, []⟩] (by decide)⟩

theorem processEdge_err_of_arr (t : Int) (data : Dict) (e : Edge)
    (hl : e.hopLabel = t) (hf : e.isiteNotEquiv = true)
    (ha : ∃ kv ∈ data, kv.2.isArr = true) :
    (processEdge t data true e).2 = true := by
  have : (processEdge t data true e).2 =
      (flipLoop (dictUpdate e.attrs data) data).2 := by
    simp [processEdge, hl, hf]
  rw [this]
  exact flipLoop_err_of_arr data _ ha

/-- Auxiliary induction for C6 over the edge list. -/
theorem add_data_arr_aux (t : Int) (data : Dict)
    (ha : ∃ kv ∈ data, kv.2.isArr = true) :
    ∀ edges : List Edge, (∃ e ∈ edges, e.hopLabel = t ∧ e.isiteNotEquiv = true) →
      (add_data_to_similar_edges t data true edges).2 = true := by
  intro edges
  induction edges with
  | nil => intro he; obtain ⟨e, hm, _⟩ := he; cases hm
  | cons e rest ih =>
    intro he
    unfold add_data_to_similar_edges
    cases hr : (processEdge t data true e).2 with
    | true => simp only [hr, if_true]
    | false =>
      simp only [hr, Bool.false_eq_true, if_false]
      refine ih ?_
      obtain ⟨e2, hm, hprop⟩ := he
      rcases List.mem_cons.mp hm with heq | hmem
      · exact absurd (heq ▸ processEdge_err_of_arr t data e2 hprop.1 hprop.2 ha)
          (by rw [← heq] at hr ⊢; simp [hr])
      · exact ⟨e2, hmem, hprop⟩

/-- C6: when a reference `m_path` is supplied and some edge with the target
label has an initial site not symmetrically equivalent to the reference's,
an array-typed value in the broadcast dict makes
`add_data_to_similar_edges` raise (the `Warning`) instead of completing
silently. -/
theorem add_data_to_similar_edges_array_raises (t : Int) (data : Dict)
    (edges : List Edge) (ha : ∃ kv ∈ data, kv.2.isArr = true)
    (he : ∃ e ∈ edges, e.hopLabel = t ∧ e.isiteNotEquiv = true) :
    (add_data_to_similar_edges t data true edges).2 = true :=
  add_data_arr_aux t data ha edges he

/-- Witness for C6: an array value in the dict and a disoriented matching
edge make the call raise. -/
theorem add_data_to_similar_edges_array_raises_witness :
    (∃ kv ∈ ([(1, Val.varr [1, 2])] : Dict), kv.2.isArr = true) ∧
    (∃ e ∈ [(⟨0, true, []⟩ : Edge)], e.hopLabel = 0 ∧ e.isiteNotEquiv = true) ∧
    (add_data_to_similar_edges 0 [(1, Val.varr [1, 2])] true
      [⟨0, true, []⟩]).2 = true :=
  ⟨⟨(1, Val.varr [1, 2]), by decide, by decide⟩,
    ⟨⟨0, true, []⟩, by decide, by decide⟩,
    add_data_to_similar_edges_array_raises 0 [(1, Val.varr [1, 2])]
      [⟨0, true, []⟩] ⟨(1, Val.varr [1, 2]), by decide, by decide⟩
      ⟨⟨0, true, []⟩, by decide, by decide⟩⟩

/-! ### assign_cost_to_graph lemmas -/

theorem add_data_false_eq_map (t : Int) (data : Dict) :
    ∀ edges : List Edge,
      add_data_to_similar_edges t data false edges =
        (edges.map (fun e => (processEdge t data false e).1), false) := by
  intro edges
  induction edges with
  | nil => rfl
  | cons e rest ih =>
    unfold add_data_to_similar_edges
    simp [processEdge_false_err, ih]

theorem assign_cost_cons_some (hd : Int × Dict) (rest : List (Int × Dict))
    (ck : List Nat) (es : List Edge) (q : ℚ)
    (hq : npProdKeys hd.2 ck = some q) :
    assign_cost_to_graph (hd :: rest) ck es =
      assign_cost_to_graph rest ck
        (add_data_to_similar_edges hd.1 [(costKey, Val.vnum q)] false es).1 := by
  show (match npProdKeys hd.2 ck with
    | none => none
    | some q => assign_cost_to_graph rest ck
        (add_data_to_similar_edges hd.1 [(costKey, Val.vnum q)] false es).1) =
    assign_cost_to_graph rest ck
      (add_data_to_similar_edges hd.1 [(costKey, Val.vnum q)] false es).1
  rw [hq]

theorem assign_cost_cons_none (hd : Int × Dict) (rest : List (Int × Dict))
    (ck : List Nat) (es : List Edge) (hq : npProdKeys hd.2 ck = none) :
    assign_cost_to_graph (hd :: rest) ck es = none := by
  show (match npProdKeys hd.2 ck with
    | none => none
    | some q => assign_cost_to_graph rest ck
        (add_data_to_similar_edges hd.1 [(costKey, Val.vnum q)] false es).1) =
    none
  rw [hq]

/-- Frame property of the whole cost assignment: labels are untouched, and
an edge whose label is not in `unique_hops` is untouched. -/
theorem assign_cost_frame :
    ∀ (hs : List (Int × Dict)) (ck : List Nat) (es final : List Edge),
      assign_cost_to_graph hs ck es = some final →
      ∀ (i : Nat) (e0 e1 : Edge), es[i]? = some e0 → final[i]? = some e1 →
        e1.hopLabel = e0.hopLabel ∧
        (e0.hopLabel ∉ hs.map Prod.fst → e1 = e0) := by
  intro hs
  induction hs with
  | nil =>
    intro ck es final hrun i e0 e1 h0 h1
    obtain rfl : es = final := by simpa [assign_cost_to_graph] using hrun
    obtain rfl : e0 = e1 := by rw [h0] at h1; exact Option.some.inj h1
    exact ⟨rfl, fun _ => rfl⟩
  | cons hd rest ih =>
    intro ck es final hrun i e0 e1 h0 h1
    cases hq : npProdKeys hd.2 ck with
    | none => rw [assign_cost_cons_none hd rest ck es hq] at hrun; cases hrun
    | some q =>
      rw [assign_cost_cons_some hd rest ck es q hq,
        add_data_false_eq_map] at hrun
      have h0m : (es.map (fun e => (processEdge hd.1 [(costKey, Val.vnum q)]
          false e).1))[i]? = some (processEdge hd.1 [(costKey, Val.vnum q)]
          false e0).1 := by
        rw [List.getElem?_map, h0]; rfl
      obtain ⟨hlab, hfr⟩ := ih ck _ final hrun i _ e1 h0m h1
      have hplab := (processEdge_fields hd.1 [(costKey, Val.vnum q)] false e0).1
      refine ⟨by rw [hlab, hplab], ?_⟩
      intro hnot
      simp only [List.map_cons, List.mem_cons, not_or] at hnot
      have hpe : (processEdge hd.1 [(costKey, Val.vnum q)] false e0).1 = e0 := by
        rw [processEdge_not_target _ _ _ _ hnot.1]
      rw [hfr (by rw [hplab]; exact hnot.2), hpe]

/-- Auxiliary induction for C7. -/
theorem assign_cost_aux :
    ∀ (hs : List (Int × Dict)) (ck : List Nat) (es final : List Edge)
      (lab : Int) (rep : Dict) (q : ℚ),
      (hs.map Prod.fst).Nodup → (lab, rep) ∈ hs →
      npProdKeys rep ck = some q →
      assign_cost_to_graph hs ck es = some final →
      ∀ (i : Nat) (e0 e1 : Edge), es[i]? = some e0 → final[i]? = some e1 →
        e0.hopLabel = lab →
        dictGet e1.attrs costKey = some (Val.vnum q) := by
  intro hs
  induction hs with
  | nil => intro ck es final lab rep q _ hmem; cases hmem
  | cons hd rest ih =>
    intro ck es final lab rep q hnd hmem hq hrun i e0 e1 h0 h1 hl
    rw [List.map_cons, List.nodup_cons] at hnd
    obtain ⟨hh, ht⟩ := hnd
    cases hq0 : npProdKeys hd.2 ck with
    | none => rw [assign_cost_cons_none hd rest ck es hq0] at hrun; cases hrun
    | some q0 =>
      rw [assign_cost_cons_some hd rest ck es q0 hq0,
        add_data_false_eq_map] at hrun
      have h0m : (es.map (fun e => (processEdge hd.1 [(costKey, Val.vnum q0)]
          false e).1))[i]? = some (processEdge hd.1 [(costKey, Val.vnum q0)]
          false e0).1 := by
        rw [List.getElem?_map, h0]; rfl
      rcases List.mem_cons.mp hmem with heq | hmem2
      · have hlab : hd.1 = lab := by rw [← heq]
        have hrep : hd.2 = rep := by rw [← heq]
        have hqq : q0 = q := by
          rw [hrep, hq] at hq0; exact (Option.some.inj hq0).symm
        have hpe : (processEdge hd.1 [(costKey, Val.vnum q0)] false e0).1 =
            { e0 with attrs := dictUpdate e0.attrs [(costKey, Val.vnum q0)] } := by
          rw [processEdge_false_spec, if_pos (by rw [hl, hlab])]
        obtain ⟨_, hfr⟩ := assign_cost_frame rest ck _ final hrun i _ e1 h0m h1
        have hfin : e1 = (processEdge hd.1 [(costKey, Val.vnum q0)] false e0).1 := by
          refine hfr ?_
          rw [(processEdge_fields hd.1 [(costKey, Val.vnum q0)] false e0).1, hl,
            ← hlab]
          exact hh
        rw [hfin, hpe]
        simp only []
        rw [dictUpdate_single, dictGet_dictSet_self, hqq]
      · exact ih ck _ final lab rep q ht hmem2 hq hrun i _ e1 h0m h1
          (by rw [(processEdge_fields hd.1 [(costKey, Val.vnum q0)] false e0).1]
              exact hl)

/-- C7: `assign_cost_to_graph` gives every edge carrying a label the `cost`
equal to the product of the `cost_keys` values of that label's
representative edge. -/
theorem assign_cost_to_graph_correct (hs : List (Int × Dict)) (ck : List Nat)
    (es final : List Edge) (lab : Int) (rep : Dict) (q : ℚ)
    (hnd : (hs.map Prod.fst).Nodup) (hmem : (lab, rep) ∈ hs)
    (hq : npProdKeys rep ck = some q)
    (hrun : assign_cost_to_graph hs ck es = some final) :
    ∀ (i : Nat) (e0 e1 : Edge), es[i]? = some e0 → final[i]? = some e1 →
      e0.hopLabel = lab → dictGet e1.attrs costKey = some (Val.vnum q) :=
  assign_cost_aux hs ck es final lab rep q hnd hmem hq hrun

/-- Witness for C7: the spec scenario with hop distances 2 and 3 on labels
0 and 1 and `cost_keys = [hop_distance]`; the label-0 edge ends with cost
2. -/
theorem assign_cost_to_graph_correct_witness :
    ((([(0, [(1, Val.vnum 2)]), (1, [(1, Val.vnum 3)])] :
        List (Int × Dict)).map Prod.fst).Nodup) ∧
    ((2 : ℚ) * 1 = 2) ∧
    dictGet ([(1, Val.vnum 2), (costKey, Val.vnum (2 * 1))] : Dict) costKey =
      some (Val.vnum (2 * 1)) :=
  ⟨by decide, by norm_num,
    assign_cost_to_graph_correct
      [(0, [(1, Val.vnum 2)]), (1, [(1, Val.vnum 3)])] [1]
      [⟨0, false, [(1, Val.vnum 2)]⟩, ⟨0, false, [(1, Val.vnum 2)]⟩,
        ⟨1, false, [(1, Val.vnum 3)]⟩, ⟨1, false, [(1, Val.vnum 3)]⟩]
      [⟨0, false, [(1, Val.vnum 2), (costKey, Val.vnum (2 * 1))]⟩,
        ⟨0, false, [(1, Val.vnum 2), (costKey, Val.vnum (2 * 1))]⟩,
        ⟨1, false, [(1, Val.vnum 3), (costKey, Val.vnum (3 * 1))]⟩,
        ⟨1, false, [(1, Val.vnum 3), (costKey, Val.vnum (3 * 1))]⟩]
      0 [(1, Val.vnum 2)] (2 * 1) (by decide) (List.mem_cons_self _ _)
      rfl rfl 0 ⟨0, false, [(1, Val.vnum 2)]⟩
      ⟨0, false, [(1, Val.vnum 2), (costKey, Val.vnum (2 * 1))]⟩
      rfl rfl rfl⟩

/-! ### generic_groupby lemmas (C1) -/

theorem olook_nil (i : Nat) : olook [] i = none := rfl

theorem olook_cons_zero (x : Option Int) (l : List (Option Int)) :
    olook (x :: l) 0 = x := rfl

theorem olook_cons_succ (x : Option Int) (l : List (Option Int)) (i : Nat) :
    olook (x :: l) (i + 1) = olook l i := rfl

theorem olook_set (lo : List (Option Int)) (i m : Nat) (v : Option Int) :
    olook (lo.set i v) m =
      if i = m ∧ i < lo.length then v else olook lo m := by
  induction lo generalizing i m with
  | nil => simp [List.set, olook_nil]
  | cons x xs ih =>
    cases i with
    | zero =>
      cases m with
      | zero => simp [List.set, olook_cons_zero]
      | succ m => simp [List.set, olook_cons_succ]
    | succ i =>
      cases m with
      | zero => simp [List.set, olook_cons_zero]
      | succ m =>
        have hred : olook ((x :: xs).set (i + 1) v) (m + 1) =
            olook (xs.set i v) m := rfl
        have hiff : (i + 1 = m + 1 ∧ i + 1 < (x :: xs).length) ↔
            (i = m ∧ i < xs.length) := by
          simp only [List.length_cons]
          omega
        rw [hred, ih, olook_cons_succ]
        by_cases h : i = m ∧ i < xs.length
        · rw [if_pos h, if_pos (hiff.mpr h)]
        · rw [if_neg h, if_neg (fun hc => h (hiff.mp hc))]

theorem olook_replicate (c i : Nat) :
    olook (List.replicate c none) i = none := by
  induction c generalizing i with
  | zero => rfl
  | succ c ih =>
    cases i with
    | zero => rfl
    | succ i => exact ih i

theorem olook_ge (lo : List (Option Int)) (i : Nat) (h : lo.length ≤ i) :
    olook lo i = none := by
  induction lo generalizing i with
  | nil => rfl
  | cons x xs ih =>
    cases i with
    | zero => simp at h
    | succ i => exact ih i (by simp at h; omega)

theorem mem_of_lookup {α : Type} {l : List α} {i : Nat} {a : α}
    (h : l[i]? = some a) : a ∈ l := by
  rw [List.getElem?_eq_some] at h
  obtain ⟨hl, rfl⟩ := h
  exact List.getElem_mem hl

theorem ggComp_eq_some {α : Type} (comp : α → α → Bool) (listIn : List α)
    (i j : Nat) (a b : α) (hi : listIn[i]? = some a)
    (hj : listIn[j]? = some b) : ggComp comp listIn i j = comp a b := by
  unfold ggComp
  rw [hi, hj]

theorem ggComp_none_left {α : Type} (comp : α → α → Bool) (listIn : List α)
    (i j : Nat) (hi : listIn[i]? = none) : ggComp comp listIn i j = false := by
  unfold ggComp
  rw [hi]

theorem ggComp_none_right {α : Type} (comp : α → α → Bool) (listIn : List α)
    (i j : Nat) (hj : listIn[j]? = none) : ggComp comp listIn i j = false := by
  unfold ggComp
  rw [hj]
  cases listIn[i]? <;> rfl

theorem ggComp_lt {α : Type} (comp : α → α → Bool) (listIn : List α)
    (i j : Nat) (h : ggComp comp listIn i j = true) :
    i < listIn.length ∧ j < listIn.length := by
  cases hi : listIn[i]? with
  | none => rw [ggComp_none_left comp listIn i j hi] at h; simp at h
  | some a =>
    cases hj : listIn[j]? with
    | none => rw [ggComp_none_right comp listIn i j hj] at h; simp at h
    | some b =>
      rw [List.getElem?_eq_some] at hi hj
      exact ⟨hi.1, hj.1⟩

theorem ggComp_refl {α : Type} (comp : α → α → Bool) (listIn : List α)
    (hrefl : ∀ a ∈ listIn, comp a a = true) (i : Nat)
    (h : i < listIn.length) : ggComp comp listIn i i = true := by
  have hi : listIn[i]? = some listIn[i] := List.getElem?_eq_getElem h
  rw [ggComp_eq_some comp listIn i i _ _ hi hi]
  exact hrefl _ (List.getElem_mem h)

theorem ggComp_symm {α : Type} (comp : α → α → Bool) (listIn : List α)
    (hsymm : ∀ a ∈ listIn, ∀ b ∈ listIn, comp a b = comp b a)
    (i j : Nat) : ggComp comp listIn i j = ggComp comp listIn j i := by
  cases hi : listIn[i]? with
  | none =>
    rw [ggComp_none_left comp listIn i j hi,
      ggComp_none_right comp listIn j i hi]
  | some a =>
    cases hj : listIn[j]? with
    | none =>
      rw [ggComp_none_right comp listIn i j hj,
        ggComp_none_left comp listIn j i hj]
    | some b =>
      rw [ggComp_eq_some comp listIn i j a b hi hj,
        ggComp_eq_some comp listIn j i b a hj hi]
      exact hsymm a (mem_of_lookup hi) b (mem_of_lookup hj)

theorem ggComp_trans {α : Type} (comp : α → α → Bool) (listIn : List α)
    (htrans : ∀ a ∈ listIn, ∀ b ∈ listIn, ∀ c ∈ listIn,
      comp a b = true → comp b c = true → comp a c = true)
    (i j k : Nat) (h1 : ggComp comp listIn i j = true)
    (h2 : ggComp comp listIn j k = true) :
    ggComp comp listIn i k = true := by
  cases hi : listIn[i]? with
  | none => rw [ggComp_none_left comp listIn i j hi] at h1; simp at h1
  | some a =>
    cases hj : listIn[j]? with
    | none => rw [ggComp_none_right comp listIn i j hj] at h1; simp at h1
    | some b =>
      cases hk : listIn[k]? with
      | none => rw [ggComp_none_right comp listIn j k hk] at h2; simp at h2
      | some c =>
        rw [ggComp_eq_some comp listIn i j a b hi hj] at h1
        rw [ggComp_eq_some comp listIn j k b c hj hk] at h2
        rw [ggComp_eq_some comp listIn i k a c hi hk]
        exact htrans a (mem_of_lookup hi) b (mem_of_lookup hj) c
          (mem_of_lookup hk) h1 h2

/-- Closed form of the inner scan when every later matching index is still
unlabeled (the situation the outer loop maintains for an equivalence
relation): every matching index in the scan list receives `list_out[i1]`
and `label_num` is unchanged (the merge branch never fires). -/
theorem ggInner_spec {α : Type} (comp : α → α → Bool) (listIn : List α)
    (i1 : Nat) (L : Int) :
    ∀ (js : List Nat) (lo : List (Option Int)) (ln : Int),
      js.Nodup → i1 ∉ js →
      (∀ j ∈ js, j < lo.length) →
      (∀ j ∈ js, ggComp comp listIn i1 j = true → olook lo j = none) →
      olook lo i1 = some L →
      (ggInner comp listIn i1 js lo ln).2 = ln ∧
      (ggInner comp listIn i1 js lo ln).1.length = lo.length ∧
      ∀ m : Nat, olook (ggInner comp listIn i1 js lo ln).1 m =
        if m ∈ js ∧ ggComp comp listIn i1 m = true then some L
        else olook lo m := by
  intro js
  induction js with
  | nil =>
    intro lo ln _ _ _ _ _
    refine ⟨rfl, rfl, fun m => ?_⟩
    simp [ggInner]
  | cons j rest ih =>
    intro lo ln hnd hi1 hlen hnone hL
    rw [List.nodup_cons] at hnd
    obtain ⟨hjr, hndr⟩ := hnd
    have hi1j : i1 ≠ j := fun h => hi1 (h ▸ List.mem_cons_self _ _)
    have hi1r : i1 ∉ rest := fun h => hi1 (List.mem_cons_of_mem _ h)
    by_cases hc : ggComp comp listIn i1 j = true
    · have hjnone : olook lo j = none :=
        hnone j (List.mem_cons_self _ _) hc
      have hgg : ggInner comp listIn i1 (j :: rest) lo ln =
          ggInner comp listIn i1 rest (lo.set j (some L)) ln := by
        simp [ggInner, hc, hjnone, hL]
      have hjlen : j < lo.length := hlen j (List.mem_cons_self _ _)
      have hlen2 : ∀ j2 ∈ rest, j2 < (lo.set j (some L)).length := by
        intro j2 hj2
        rw [List.length_set]
        exact hlen j2 (List.mem_cons_of_mem _ hj2)
      have hnone2 : ∀ j2 ∈ rest, ggComp comp listIn i1 j2 = true →
          olook (lo.set j (some L)) j2 = none := by
        intro j2 hj2 hR
        have hne : j ≠ j2 := fun h => hjr (h ▸ hj2)
        rw [olook_set, if_neg (fun hcon => hne hcon.1)]
        exact hnone j2 (List.mem_cons_of_mem _ hj2) hR
      have hL2 : olook (lo.set j (some L)) i1 = some L := by
        rw [olook_set, if_neg (fun hcon => hi1j hcon.1.symm)]
        exact hL
      obtain ⟨h1, h2, h3⟩ := ih (lo.set j (some L)) ln hndr hi1r hlen2
        hnone2 hL2
      refine ⟨by rw [hgg]; exact h1,
        by rw [hgg, h2, List.length_set], fun m => ?_⟩
      rw [hgg, h3 m]
      by_cases hm : m ∈ rest ∧ ggComp comp listIn i1 m = true
      · rw [if_pos hm, if_pos ⟨List.mem_cons_of_mem _ hm.1, hm.2⟩]
      · rw [if_neg hm]
        by_cases hmj : m = j
        · subst hmj
          rw [if_pos ⟨List.mem_cons_self _ _, hc⟩, olook_set,
            if_pos ⟨rfl, hjlen⟩]
        · have hcon : ¬(m ∈ j :: rest ∧ ggComp comp listIn i1 m = true) := by
            rintro ⟨hmem, hR⟩
            rcases List.mem_cons.mp hmem with h | h
            · exact hmj h
            · exact hm ⟨h, hR⟩
          rw [if_neg hcon, olook_set,
            if_neg (fun hcon2 => hmj hcon2.1.symm)]
    · have hgg : ggInner comp listIn i1 (j :: rest) lo ln =
          ggInner comp listIn i1 rest lo ln := by
        simp [ggInner, hc]
      obtain ⟨h1, h2, h3⟩ := ih lo ln hndr hi1r
        (fun j2 hj2 => hlen j2 (List.mem_cons_of_mem _ hj2))
        (fun j2 hj2 hR => hnone j2 (List.mem_cons_of_mem _ hj2) hR) hL
      refine ⟨by rw [hgg]; exact h1, by rw [hgg]; exact h2, fun m => ?_⟩
      rw [hgg, h3 m]
      by_cases hm : m ∈ rest ∧ ggComp comp listIn i1 m = true
      · rw [if_pos hm, if_pos ⟨List.mem_cons_of_mem _ hm.1, hm.2⟩]
      · rw [if_neg hm]
        have hcon : ¬(m ∈ j :: rest ∧ ggComp comp listIn i1 m = true) := by
          rintro ⟨hmem, hR⟩
          rcases List.mem_cons.mp hmem with h | h
          · exact hc (h ▸ hR)
          · exact hm ⟨h, hR⟩
        rw [if_neg hcon]

/-- The outer loop of `generic_groupby` preserves `GGInv` while it walks the
remaining index range, and ends with the invariant at the full length. -/
theorem ggOuter_spec {α : Type} (comp : α → α → Bool) (listIn : List α)
    (hrefl : ∀ a ∈ listIn, comp a a = true)
    (hsymm : ∀ a ∈ listIn, ∀ b ∈ listIn, comp a b = comp b a)
    (htrans : ∀ a ∈ listIn, ∀ b ∈ listIn, ∀ c ∈ listIn,
      comp a b = true → comp b c = true → comp a c = true) :
    ∀ (c k : Nat) (lo : List (Option Int)) (ln : Int),
      c = listIn.length - k →
      GGInv comp listIn k lo ln →
      ∃ ln2, GGInv comp listIn listIn.length
        (ggOuter comp listIn (List.range' k c) lo ln) ln2 := by
  intro c
  induction c with
  | zero =>
    intro k lo ln hc hinv
    obtain ⟨h1, h2, h3, h4⟩ := hinv
    refine ⟨ln, h1, fun i => ?_, h3, h4⟩
    show (olook lo i).isSome = true ↔
      ∃ j, j < listIn.length ∧ ggComp comp listIn j i = true
    rw [h2 i]
    constructor
    · rintro ⟨j, hj, hR⟩
      exact ⟨j, (ggComp_lt comp listIn j i hR).1, hR⟩
    · rintro ⟨j, hj, hR⟩
      have hjn := (ggComp_lt comp listIn j i hR).1
      exact ⟨j, by omega, hR⟩
  | succ c ih =>
    intro k lo ln hc hinv
    obtain ⟨h1, h2, h3, h4⟩ := hinv
    have hkn : k < listIn.length := by omega
    rw [List.range'_succ]
    cases hko : olook lo k with
    | some L =>
      have hgg : ggOuter comp listIn (k :: List.range' (k + 1) c) lo ln =
          ggOuter comp listIn (List.range' (k + 1) c) lo ln := by
        simp [ggOuter, hko]
      rw [hgg]
      obtain ⟨j0, hj0, hR0⟩ := (h2 k).mp (by rw [hko]; rfl)
      refine ih (k + 1) lo ln (by omega) ⟨h1, fun i => ?_, h3, h4⟩
      rw [h2 i]
      constructor
      · rintro ⟨j, hj, hR⟩
        exact ⟨j, by omega, hR⟩
      · rintro ⟨j, hj, hR⟩
        rcases Nat.lt_succ_iff_lt_or_eq.mp hj with h | h
        · exact ⟨j, h, hR⟩
        · rw [h] at hR
          exact ⟨j0, hj0, ggComp_trans comp listIn htrans j0 k i hR0 hR⟩
    | none =>
      have hklo : k < lo.length := by rw [h1]; exact hkn
      have hgg : ggOuter comp listIn (k :: List.range' (k + 1) c) lo ln =
          ggOuter comp listIn (List.range' (k + 1) c)
            (ggInner comp listIn k
              (List.range' (k + 1) (listIn.length - (k + 1)))
              (lo.set k (some ln)) ln).1
            ((ggInner comp listIn k
              (List.range' (k + 1) (listIn.length - (k + 1)))
              (lo.set k (some ln)) ln).2 + 1) := by
        simp [ggOuter, hko]
      have hmemjs : ∀ j : Nat,
          j ∈ List.range' (k + 1) (listIn.length - (k + 1)) ↔
          k + 1 ≤ j ∧ j < listIn.length := by
        intro j
        rw [List.mem_range'_1]
        omega
      have hknotjs : k ∉ List.range' (k + 1) (listIn.length - (k + 1)) := by
        intro h
        have := (hmemjs k).mp h
        omega
      have hnodupjs : (List.range' (k + 1) (listIn.length - (k + 1))).Nodup :=
        List.nodup_range' _ _
      have hunlabeled : ∀ j ∈ List.range' (k + 1) (listIn.length - (k + 1)),
          ggComp comp listIn k j = true →
          olook (lo.set k (some ln)) j = none := by
        intro j hj hR
        have hjk : k ≠ j := fun h => hknotjs (h ▸ hj)
        rw [olook_set, if_neg (fun hcon => hjk hcon.1)]
        cases hlj : olook lo j with
        | none => rfl
        | some w =>
          exfalso
          obtain ⟨j2, hj2, hR2⟩ := (h2 j).mp (by rw [hlj]; rfl)
          have hRjk : ggComp comp listIn j k = true := by
            rw [ggComp_symm comp listIn hsymm j k]
            exact hR
          have hR2k : ggComp comp listIn j2 k = true :=
            ggComp_trans comp listIn htrans j2 j k hR2 hRjk
          have hks : (olook lo k).isSome = true := (h2 k).mpr ⟨j2, hj2, hR2k⟩
          rw [hko] at hks
          simp at hks
      have hlen2 : ∀ j ∈ List.range' (k + 1) (listIn.length - (k + 1)),
          j < (lo.set k (some ln)).length := by
        intro j hj
        rw [List.length_set, h1]
        exact ((hmemjs j).mp hj).2
      have hLk : olook (lo.set k (some ln)) k = some ln := by
        rw [olook_set, if_pos ⟨rfl, hklo⟩]
      obtain ⟨hln2, hlenst, hchar⟩ := ggInner_spec comp listIn k ln
        (List.range' (k + 1) (listIn.length - (k + 1)))
        (lo.set k (some ln)) ln hnodupjs hknotjs hlen2 hunlabeled hLk
      set st := ggInner comp listIn k
        (List.range' (k + 1) (listIn.length - (k + 1)))
        (lo.set k (some ln)) ln with hst
      have hRkk : ggComp comp listIn k k = true :=
        ggComp_refl comp listIn hrefl k hkn
      have hA : ∀ m : Nat, olook st.1 m =
          if ggComp comp listIn k m = true then some ln else olook lo m := by
        intro m
        rw [hchar m]
        by_cases hR : ggComp comp listIn k m = true
        · rw [if_pos hR]
          by_cases hmem : m ∈ List.range' (k + 1) (listIn.length - (k + 1))
          · rw [if_pos ⟨hmem, hR⟩]
          · rw [if_neg (fun hcon => hmem hcon.1)]
            by_cases hmk : m = k
            · subst hmk
              exact hLk
            · exfalso
              have hmn : m < listIn.length := (ggComp_lt comp listIn k m hR).2
              have hnotin : ¬(k + 1 ≤ m ∧ m < listIn.length) :=
                fun hcc => hmem ((hmemjs m).mpr hcc)
              have hmk2 : m < k := by omega
              have hRmk : ggComp comp listIn m k = true := by
                rw [ggComp_symm comp listIn hsymm m k]
                exact hR
              have hRmm : ggComp comp listIn m m = true :=
                ggComp_refl comp listIn hrefl m hmn
              have hks : (olook lo k).isSome = true :=
                (h2 k).mpr ⟨m, hmk2, hRmk⟩
              rw [hko] at hks
              simp at hks
        · rw [if_neg hR]
          have hmk : m ≠ k := fun h => hR (h ▸ hRkk)
          rw [if_neg (fun hcon => hR hcon.2), olook_set,
            if_neg (fun hcon => hmk hcon.1.symm)]
      have h2new : ∀ i : Nat, (olook st.1 i).isSome = true ↔
          ∃ j, j < k + 1 ∧ ggComp comp listIn j i = true := by
        intro i
        rw [hA i]
        by_cases hR : ggComp comp listIn k i = true
        · rw [if_pos hR]
          exact ⟨fun _ => ⟨k, Nat.lt_succ_self k, hR⟩, fun _ => rfl⟩
        · rw [if_neg hR, h2 i]
          constructor
          · rintro ⟨j, hj, hRj⟩
            exact ⟨j, by omega, hRj⟩
          · rintro ⟨j, hj, hRj⟩
            rcases Nat.lt_succ_iff_lt_or_eq.mp hj with h | h
            · exact ⟨j, h, hRj⟩
            · rw [h] at hRj
              exact absurd hRj hR
      have hlabval : ∀ (i : Nat) (L2 : Int), olook st.1 i = some L2 →
          (ggComp comp listIn k i = true ∧ L2 = ln) ∨
          (ggComp comp listIn k i = false ∧ olook lo i = some L2) := by
        intro i L2 hi
        rw [hA i] at hi
        by_cases hR : ggComp comp listIn k i = true
        · rw [if_pos hR] at hi
          exact Or.inl ⟨hR, (Option.some.inj hi).symm⟩
        · rw [if_neg hR] at hi
          rw [Bool.not_eq_true] at hR
          exact Or.inr ⟨hR, hi⟩
      have h3new : ∀ (i i2 : Nat) (L2 L3 : Int), olook st.1 i = some L2 →
          olook st.1 i2 = some L3 →
          (L2 = L3 ↔ ggComp comp listIn i i2 = true) := by
        intro i i2 L2 L3 hi hi2
        rcases hlabval i L2 hi with ⟨hRi, hLi⟩ | ⟨hRi, hoi⟩ <;>
          rcases hlabval i2 L3 hi2 with ⟨hRi2, hLi2⟩ | ⟨hRi2, hoi2⟩
        · constructor
          · intro _
            have hRik : ggComp comp listIn i k = true := by
              rw [ggComp_symm comp listIn hsymm i k]
              exact hRi
            exact ggComp_trans comp listIn htrans i k i2 hRik hRi2
          · intro _
            rw [hLi, hLi2]
        · have hlt : L3 < ln := h4 i2 L3 hoi2
          constructor
          · intro h
            omega
          · intro hR
            exfalso
            have hcon : ggComp comp listIn k i2 = true :=
              ggComp_trans comp listIn htrans k i i2 hRi hR
            rw [hRi2] at hcon
            simp at hcon
        · have hlt : L2 < ln := h4 i L2 hoi
          constructor
          · intro h
            omega
          · intro hR
            exfalso
            have hRi2i : ggComp comp listIn i2 i = true := by
              rw [ggComp_symm comp listIn hsymm i2 i]
              exact hR
            have hcon : ggComp comp listIn k i = true :=
              ggComp_trans comp listIn htrans k i2 i hRi2 hRi2i
            rw [hRi] at hcon
            simp at hcon
        · exact h3 i i2 L2 L3 hoi hoi2
      have h4new : ∀ (i : Nat) (L2 : Int), olook st.1 i = some L2 →
          L2 < ln + 1 := by
        intro i L2 hi
        rcases hlabval i L2 hi with ⟨_, hLeq⟩ | ⟨_, hoi⟩
        · omega
        · have hlt := h4 i L2 hoi
          omega
      have hinv2 : GGInv comp listIn (k + 1) st.1 (ln + 1) :=
        ⟨by rw [hlenst, List.length_set, h1], h2new, h3new, h4new⟩
      rw [hgg]
      exact ih (k + 1) st.1 (st.2 + 1) (by omega) (by rw [hln2]; exact hinv2)

/-- C1: for a comparator that is an equivalence relation on the input list,
`generic_groupby` returns a fully labeled list of the same length in which
two in-range indices carry the same label exactly when the comparator
relates their items. -/
theorem generic_groupby_correct {α : Type} (comp : α → α → Bool)
    (listIn : List α)
    (hrefl : ∀ a ∈ listIn, comp a a = true)
    (hsymm : ∀ a ∈ listIn, ∀ b ∈ listIn, comp a b = comp b a)
    (htrans : ∀ a ∈ listIn, ∀ b ∈ listIn, ∀ c ∈ listIn,
      comp a b = true → comp b c = true → comp a c = true) :
    (generic_groupby comp listIn).length = listIn.length ∧
    (∀ i : Nat, i < listIn.length →
      (olook (generic_groupby comp listIn) i).isSome = true) ∧
    (∀ i j : Nat, i < listIn.length → j < listIn.length →
      (olook (generic_groupby comp listIn) i =
        olook (generic_groupby comp listIn) j ↔
        ggComp comp listIn i j = true)) := by
  have hinit : GGInv comp listIn 0 (List.replicate listIn.length none) 0 := by
    refine ⟨List.length_replicate _ _, fun i => ?_,
      fun i i2 L L2 hi _ => ?_, fun i L hi => ?_⟩
    · rw [olook_replicate]
      simp
    · rw [olook_replicate] at hi
      simp at hi
    · rw [olook_replicate] at hi
      simp at hi
  obtain ⟨ln2, hfin⟩ := ggOuter_spec comp listIn hrefl hsymm htrans
    listIn.length 0 (List.replicate listIn.length none) 0 (by omega) hinit
  have hout : generic_groupby comp listIn =
      ggOuter comp listIn (List.range' 0 listIn.length)
        (List.replicate listIn.length none) 0 := by
    unfold generic_groupby
    rw [List.range_eq_range']
  rw [hout]
  obtain ⟨h1, h2, h3, h4⟩ := hfin
  refine ⟨h1, fun i hi => ?_, fun i j hi hj => ?_⟩
  · exact (h2 i).mpr ⟨i, hi, ggComp_refl comp listIn hrefl i hi⟩
  · have hsi := (h2 i).mpr ⟨i, hi, ggComp_refl comp listIn hrefl i hi⟩
    have hsj := (h2 j).mpr ⟨j, hj, ggComp_refl comp listIn hrefl j hj⟩
    obtain ⟨Li, hLi⟩ := Option.isSome_iff_exists.mp hsi
    obtain ⟨Lj, hLj⟩ := Option.isSome_iff_exists.mp hsj
    rw [hLi, hLj]
    constructor
    · intro h
      exact (h3 i j Li Lj hLi hLj).mp (Option.some.inj h)
    · intro h
      rw [(h3 i j Li Lj hLi hLj).mpr h]

/-- Witness for C1: grouping `[0, 1, 3, 4, 6]` by congruence mod 3, which is
an equivalence relation. -/
theorem generic_groupby_correct_witness :
    (∀ a ∈ ([0, 1, 3, 4, 6] : List Nat),
      (fun a b : Nat => a % 3 == b % 3) a a = true) ∧
    ((generic_groupby (fun a b : Nat => a % 3 == b % 3)
        [0, 1, 3, 4, 6]).length = ([0, 1, 3, 4, 6] : List Nat).length ∧
      (∀ i : Nat, i < ([0, 1, 3, 4, 6] : List Nat).length →
        (olook (generic_groupby (fun a b : Nat => a % 3 == b % 3)
          [0, 1, 3, 4, 6]) i).isSome = true) ∧
      (∀ i j : Nat, i < ([0, 1, 3, 4, 6] : List Nat).length →
        j < ([0, 1, 3, 4, 6] : List Nat).length →
        (olook (generic_groupby (fun a b : Nat => a % 3 == b % 3)
            [0, 1, 3, 4, 6]) i =
          olook (generic_groupby (fun a b : Nat => a % 3 == b % 3)
            [0, 1, 3, 4, 6]) j ↔
          ggComp (fun a b : Nat => a % 3 == b % 3) [0, 1, 3, 4, 6] i j =
            true))) :=
  ⟨by decide,
    generic_groupby_correct (fun a b : Nat => a % 3 == b % 3) [0, 1, 3, 4, 6]
      (by decide) (by decide) (by decide)⟩

/-- Witness for C3 at a concrete input with exactly one matching edge. -/
theorem reconstructStep_correct_witness :
    ((([⟨(1, 0, 0), 5⟩, ⟨(0, 1, 0), 6⟩] : List EdgeDatum).filter
        (jMatch (subJ (1, 0, 0) (0, 0, 0)))).length = 1) ∧
    reconstructStep [] [⟨(1, 0, 0), 5⟩, ⟨(0, 1, 0), 6⟩] (0, 0, 0) (1, 0, 0) =
      some ([] ++ ([⟨(1, 0, 0), 5⟩, ⟨(0, 1, 0), 6⟩] : List EdgeDatum).filter
        (jMatch (subJ (1, 0, 0) (0, 0, 0)))) :=
  ⟨by decide,
    (reconstructStep_correct [] [⟨(1, 0, 0), 5⟩, ⟨(0, 1, 0), 6⟩]
      (0, 0, 0) (1, 0, 0)).2 (by decide)⟩

end FPM
